import Mathlib

/-!
Verification of the WikiScout summarization engine
(`src/modules/summarize.py`, class `SummarizeModule`).

Python strings are modelled as `List Char`; Python dictionaries with a
fixed field set (`Section`, page content) are modelled as structures whose
fields are `Option (List Char)`, so that `dict.get(key, default)` becomes
`field.getD default`.  Python `float` scores are modelled as `ℚ` (every
constant in the scoring code is a small decimal fraction, and the claims
only depend on exact comparisons of such sums, which agree with IEEE
arithmetic on signs used here only through nonnegativity; the sentinel
-100 is exact in both).  Counts (`num_bullets`, `top_n`, `num_points`)
are modelled as `ℕ`, matching the call sites, which pass nonnegative
counts.
-/

set_option allowUnsafeReducibility true

set_option maxRecDepth 100000

attribute [local semireducible] Rat.add Rat.mul Rat.inv Rat.sub Rat.neg Rat.div

namespace WikiScout

/-- Python `str`, modelled as a list of characters. -/
abbrev Str := List Char

/-- The whitespace characters of Python `str.split()` / regex `\s`
(ASCII fragment, which is all the engine's inputs use). -/
def pyIsSpace (c : Char) : Bool :=
  c = ' ' || c = '\t' || c = '\n' || c = '\r' || c = '\x0b' || c = '\x0c'

/-- Helper for `pySplitWs`: `cur` is the current token, reversed. -/
def pySplitWsAux (cur : Str) : Str → List Str
  | [] => if cur = [] then [] else [cur.reverse]
  | c :: rest =>
    if pyIsSpace c then
      if cur = [] then pySplitWsAux [] rest
      else cur.reverse :: pySplitWsAux [] rest
    else pySplitWsAux (c :: cur) rest

/-- Python `str.split()` with no separator: split on runs of whitespace,
discarding empty pieces. -/
def pySplitWs (s : Str) : List Str := pySplitWsAux [] s

/-- Python `str.lower()` (ASCII fragment). -/
def pyLower (s : Str) : Str := s.map Char.toLower

/-- Python `str.strip()`. -/
def pyStrip (s : Str) : Str :=
  ((s.dropWhile pyIsSpace).reverse.dropWhile pyIsSpace).reverse

/-- Python `needle in hay` on strings: substring test. -/
def containsSub (needle : Str) : Str → Bool
  | [] => needle.isPrefixOf []
  | c :: rest => needle.isPrefixOf (c :: rest) || containsSub needle rest

/-- Python `str.startswith`. -/
def pyStartsWith (pre s : Str) : Bool := pre.isPrefixOf s

/-- Python `str.endswith`. -/
def pyEndsWith (suf s : Str) : Bool := suf.isSuffixOf s

/-- `re.search(r'\d', text)` and friends: the text contains a decimal digit.
(`\d{1,4}` and `\d+` match somewhere iff a single digit occurs somewhere.) -/
def hasDigit (s : Str) : Bool := s.any (fun c => c.isDigit)

/-- A regex word character (`\w` / the sides of `\b`), ASCII fragment. -/
def wordChar (c : Char) : Bool :=
  c.isAlpha || c.isDigit || c = '_'

/-- Does one of the literal alternatives `ws` match at the very start of `s`,
with a word boundary after it?  (The boundary before is checked by the
caller via `prev`.) -/
def altsMatchHere (ws : List Str) (s : Str) : Bool :=
  ws.any (fun w =>
    w.isPrefixOf s &&
    match (s.drop w.length).head? with
    | none => true
    | some d => !wordChar d)

/-- `re.search(r'\b(w1|w2|...)\b', s)`: some alternative occurs in `s`
delimited by word boundaries.  `prev` is the character just before the
current position (`none` at the start of the string). -/
def hasWordAux (ws : List Str) (prev : Option Char) : Str → Bool
  | [] => (match prev with | none => true | some p => !wordChar p) && altsMatchHere ws []
  | c :: rest =>
    ((match prev with | none => true | some p => !wordChar p) && altsMatchHere ws (c :: rest))
    || hasWordAux ws (some c) rest

def hasWordIn (ws : List Str) (s : Str) : Bool := hasWordAux ws none s

/-- `re.search(r'\b(19|20)\d{2}\b', text)`: a four-digit year starting 19 or
20, with word boundaries on both sides. -/
def yearAtHere (s : Str) : Bool :=
  match s with
  | a :: b :: c :: d :: rest =>
    (a = '1' && b = '9' || a = '2' && b = '0') && c.isDigit && d.isDigit &&
    (match rest.head? with | none => true | some e => !wordChar e)
  | _ => false

def hasYearAux (prev : Option Char) : Str → Bool
  | [] => false
  | c :: rest =>
    ((match prev with | none => true | some p => !wordChar p) && yearAtHere (c :: rest))
    || hasYearAux (some c) rest

def hasYear (s : Str) : Bool := hasYearAux none s

/-- A `Section` dictionary: the keys read by the engine, each possibly
absent (`.get` with a default at every read site). -/
structure Section where
  heading : Option Str := none
  text : Option Str := none
  htmlId : Option Str := none
deriving DecidableEq, Repr

/-- The skip set of `_score_section` ("Skip low-value sections"). -/
def skipHeadings : List Str :=
  ["references".data, "see also".data, "notes".data,
   "external links".data, "gallery".data, "infobox".data]

/-- The content-keyword weight table of `_score_section`. -/
def contentKeywords : List (Str × ℚ) :=
  [("developed".data, 2), ("created".data, 2), ("discovered".data, 2), ("founded".data, 2),
   ("invented".data, 3), ("pioneered".data, 3), ("revolutionized".data, 3),
   ("major".data, 1), ("important".data, 1), ("significant".data, 2), ("critical".data, 2),
   ("however".data, 1), ("unlike".data, 2), ("difference".data, 2), ("distinction".data, 2)]

/-- Python `min(a, b)` on numbers (kernel-reducible, unlike the lattice
`⊓` of `ℚ`). -/
def pyMinQ (a b : ℚ) : ℚ := if a ≤ b then a else b

/-- Python `max(a, b)` on numbers. -/
def pyMaxN (a b : ℕ) : ℕ := if a ≤ b then b else a

/-- `SummarizeModule._score_section`. -/
def scoreSection (s : Section) : ℚ :=
  let text := s.text.getD []
  let heading := s.heading.getD []
  if pyLower heading ∈ skipHeadings then -100
  else
    let wordCount : ℕ := (pySplitWs text).length
    let lengthScore : ℚ := pyMinQ 15 ((wordCount : ℚ) / 15)
    let words := pySplitWs (pyLower text)
    let uniqueRatio : ℚ := (words.dedup.length : ℚ) / (pyMaxN words.length 1 : ℕ)
    let diversityScore : ℚ := uniqueRatio * 12
    let numberScore : ℚ := if hasDigit text then 5 else 0
    let yearScore : ℚ := if hasYear text then 4 else 0
    let contentScore : ℚ :=
      (contentKeywords.filter (fun kv => containsSub kv.1 (pyLower text))).foldl
        (fun acc kv => acc + kv.2) 0
    let introBoost : ℚ :=
      if pyLower heading ∈ ["introduction".data, "overview".data,
                            "background".data, "history".data] then 3 else 0
    let careerBoost : ℚ :=
      if pyLower heading ∈ ["early life".data, "career".data, "works".data,
                            "achievements".data, "legacy".data] then 2 else 0
    lengthScore + diversityScore + numberScore + yearScore +
      contentScore + introBoost + careerBoost

/-- `text.replace('\\n', ' ')`: replace literal backslash-n pairs. -/
def replaceBackslashN : Str → Str
  | '\\' :: 'n' :: rest => ' ' :: replaceBackslashN rest
  | c :: rest => c :: replaceBackslashN rest
  | [] => []

/-- Helper for `splitSentences`: `cur` is the current piece, reversed.  A cut
happens at a whitespace character whose predecessor is `.`, `!` or `?`
(the `(?<=[.!?])\s+` split of `_split_sentences`); the rest of the
whitespace run is left on the next piece and removed by the `strip` below. -/
def splitSentRaw (cur : Str) : Str → List Str
  | [] => [cur.reverse]
  | c :: rest =>
    if pyIsSpace c && (cur.head? = some '.' || cur.head? = some '!' || cur.head? = some '?')
    then cur.reverse :: splitSentRaw [] rest
    else splitSentRaw (c :: cur) rest

/-- `SummarizeModule._split_sentences`. -/
def splitSentences (text : Str) : List Str :=
  let t := (replaceBackslashN text).map (fun c => if c = '\n' then ' ' else c)
  ((splitSentRaw [] t).map pyStrip).filter (fun s => s ≠ [])

/-- Model of `BeautifulSoup(text).get_text(separator=' ')`: drop `<...>` tag
regions, leaving a separating space (faithful for the plain and simply
tagged texts the engine receives; the subsequent whitespace collapse
makes the separator placement irrelevant). -/
def stripTagsAux (inTag : Bool) : Str → Str
  | [] => []
  | c :: rest =>
    if inTag then (if c = '>' then stripTagsAux false rest else stripTagsAux true rest)
    else if c = '<' then ' ' :: stripTagsAux true rest
    else c :: stripTagsAux false rest

/-- `re.sub(r'\s+', ' ', text)`. -/
def collapseWsAux (prevSpace : Bool) : Str → Str
  | [] => []
  | c :: rest =>
    if pyIsSpace c then
      if prevSpace then collapseWsAux true rest else ' ' :: collapseWsAux true rest
    else c :: collapseWsAux false rest

/-- Helper for `removeBrackets`: when `pending = some buf`, the characters
since the latest unclosed `[` (that `[` included) are held in `buf`,
reversed, awaiting a `]`; with no closing `]` they are emitted verbatim,
matching the lazy regex, which needs a `]` to match at all. -/
def removeBracketsAux (pending : Option Str) : Str → Str
  | [] =>
    match pending with
    | none => []
    | some buf => buf.reverse
  | c :: rest =>
    match pending with
    | none =>
      if c = '[' then removeBracketsAux (some ['[']) rest
      else c :: removeBracketsAux none rest
    | some buf =>
      if c = ']' then removeBracketsAux none rest
      else removeBracketsAux (some (c :: buf)) rest

/-- `re.sub(r'\[.*?\]', '', text)`: remove lazily matched bracket groups. -/
def removeBrackets (s : Str) : Str := removeBracketsAux none s

/-- `SummarizeModule._clean_html_text`. -/
def cleanHtmlText (text : Str) : Str :=
  if text = [] then []
  else removeBrackets (pyStrip (collapseWsAux false (stripTagsAux false text)))

/-- The generic-prefix regex set of `_is_generic_bullet`. -/
def genericPatterns : List Str :=
  ["key point".data, "relates to".data, "involves".data,
   "mentioned in".data, "also known as".data,
   "more information".data, "further details".data]

/-- `SummarizeModule._is_generic_bullet`. -/
def isGenericBullet (text : Str) : Bool :=
  genericPatterns.any (fun p => pyStartsWith p (pyLower text))

/-- Stable insertion of `p` into a descending-by-`key` list: `p` goes in
front of the first element whose key is `≤ key p`. -/
def insD (key : α → ℚ) (p : α) : List α → List α
  | [] => [p]
  | q :: l => if key q ≤ key p then p :: q :: l else q :: insD key p l

/-- Python `list.sort(key=..., reverse=True)` / `sorted(..., reverse=True)`:
stable descending sort by `key`. -/
def sortD (key : α → ℚ) : List α → List α
  | [] => []
  | p :: l => insD key p (sortD key l)

/-- The generic sentence starters skipped by `_extract_key_sentence`. -/
def genericStarters : List Str :=
  ["key point".data, "main idea".data, "important".data, "also".data, "further".data,
   "however".data, "therefore".data, "moreover".data, "likewise".data, "additionally".data]

/-- The verb alternatives of the `has_verb` regex. -/
def verbAlts : List Str :=
  ["is".data, "are".data, "was".data, "were".data, "be".data, "have".data, "has".data,
   "do".data, "does".data, "created".data, "developed".data, "discovered".data,
   "established".data, "founded".data]

/-- The comparison alternatives of the `has_comparison` regex. -/
def comparisonAlts : List Str :=
  ["first".data, "largest".data, "smallest".data, "most".data, "least".data,
   "unlike".data, "similar".data, "between".data]

/-- The generic phrases penalized inside `_extract_key_sentence`. -/
def genericPhrases : List Str :=
  ["key point".data, "relates to".data, "involves".data, "mentioned in".data]

/-- The per-sentence score of the candidate loop in `_extract_key_sentence`. -/
def sentenceScore (context sent : Str) : ℚ :=
  let words := pySplitWs sent
  let sentLower := pyLower sent
  (words.dedup.length : ℚ) * (1/2)
  + (if hasDigit sent then 3 else 0)
  + (if hasWordIn verbAlts sentLower then 2 else 0)
  + (if hasWordIn comparisonAlts sentLower then 2 else 0)
  + (if containsSub (pyLower context) sentLower then 5 else 0)
  + (if genericPhrases.any (fun p => containsSub p sentLower) then -10 else 0)

/-- The candidate filter of `_extract_key_sentence`: 5–30 words and not a
generic starter. -/
def sentenceCandidate (sent : Str) : Bool :=
  (5 ≤ (pySplitWs sent).length && (pySplitWs sent).length ≤ 30)
  && !(genericStarters.any (fun st => pyStartsWith st (pyLower sent)))

/-- `best_sent[:150].rsplit(' ', 1)[0]`. -/
def rsplitInit (t : Str) : Str :=
  if ' ' ∈ t then ((t.reverse.dropWhile (fun c => c ≠ ' ')).drop 1).reverse else t

/-- The over-150-characters truncation of `_extract_key_sentence`:
`sent[:150].rsplit(' ', 1)[0] + "..."`. -/
def truncate150 (s : Str) : Str := rsplitInit (s.take 150) ++ "...".data

/-- `SummarizeModule._extract_key_sentence`. -/
def extractKeySentence (text0 : Str) (context : Str) : Str :=
  let text := cleanHtmlText text0
  let sentences := splitSentences text
  if sentences = [] then []
  else
    let scored := (sentences.filter sentenceCandidate).map
      (fun sent => (sentenceScore context sent, sent))
    match (sortD Prod.fst scored).head? with
    | some best => if 150 < best.2.length then truncate150 best.2 else best.2
    | none =>
      match sentences.find? (fun sent => 20 < sent.length && 5 ≤ (pySplitWs sent).length) with
      | some sent => if 150 < sent.length then truncate150 sent else sent
      | none => (sentences.headD []).take 150

/-- Bullet quality tier: the `"quality"` field (`"high"` / `"medium"`). -/
inductive Quality
  | high
  | medium
deriving DecidableEq, Repr

/-- A bullet dictionary as built by `generate_bullets`
(`sectionHeading`/`sectionId` are the `"section"`/`"section_id"` keys). -/
structure Bullet where
  text : Str
  sectionHeading : Str
  sectionId : Str
  score : ℚ
  quality : Quality
deriving DecidableEq, Repr

/-- The headings excluded from the medium-quality fallback pass. -/
def excludedFallbackHeadings : List Str :=
  ["references".data, "see also".data, "notes".data, "external links".data]

/-- The first ("high quality") pass of `generate_bullets`: `count` is the
number of bullets collected so far (the loop breaks once it reaches
`num` just after appending). -/
def firstPass (num : ℕ) : ℕ → List (ℚ × Section) → List Bullet
  | _, [] => []
  | count, (score, s) :: rest =>
    let heading := s.heading.getD "Section".data
    let text := s.text.getD []
    let ks := extractKeySentence text heading
    if ks ≠ [] ∧ isGenericBullet ks = false then
      let b : Bullet := ⟨ks, heading, s.htmlId.getD [], score, .high⟩
      if num ≤ count + 1 then [b]
      else b :: firstPass num (count + 1) rest
    else firstPass num count rest

/-- The fallback ("medium quality") pass of `generate_bullets`: the loop
breaks before appending once `count` bullets exist. -/
def secondPass (num : ℕ) : ℕ → List (ℚ × Section) → List Bullet
  | _, [] => []
  | count, (score, s) :: rest =>
    if num ≤ count then []
    else
      let heading := s.heading.getD "Section".data
      if pyLower heading ∈ excludedFallbackHeadings then secondPass num count rest
      else
        ⟨heading ++ ": ".data ++ (s.text.getD []).take 100,
         heading, s.htmlId.getD [], score, .medium⟩
          :: secondPass num (count + 1) rest

/-- `SummarizeModule.generate_bullets`. -/
def generateBullets (sections : List Section) (numBullets : ℕ) : List Bullet :=
  if sections = [] then []
  else
    let scoredSections := sections.filterMap (fun s =>
      if s.text.getD [] ≠ [] then some (scoreSection s, s) else none)
    let sorted := sortD Prod.fst scoredSections
    let sectionBullets := firstPass numBullets 0 sorted
    if numBullets ≤ sectionBullets.length then sectionBullets.take numBullets
    else sectionBullets ++
      secondPass numBullets sectionBullets.length (sorted.drop sectionBullets.length)

/-- The stop-word set of `_extract_keywords` (a Python `set`; the repeated
`'will'`/`'shall'` entries collapse). -/
def stopWords : List Str :=
  ["the".data, "a".data, "an".data, "is".data, "are".data, "was".data, "were".data,
   "be".data, "been".data, "have".data, "has".data, "had".data, "do".data, "does".data,
   "did".data, "in".data, "on".data, "at".data, "to".data, "of".data, "and".data,
   "or".data, "but".data, "not".data, "what".data, "which".data, "who".data,
   "when".data, "where".data, "why".data, "how".data, "all".data, "each".data,
   "every".data, "both".data, "few".data, "more".data, "most".data, "such".data,
   "as".data, "for".data, "from".data, "with".data, "by".data, "that".data,
   "this".data, "if".data, "no".data, "yes".data, "it".data, "its".data, "can".data,
   "will".data, "would".data, "could".data, "should".data, "may".data, "might".data,
   "must".data, "shall".data, "during".data, "before".data, "after".data, "also".data]

/-- The noun-suffix bonus set of `_extract_keywords`. -/
def nounSuffixes : List Str :=
  ["tion".data, "ment".data, "ness".data, "ism".data, "ity".data, "ble".data]

/-- The per-occurrence weight a token accumulates. -/
def keywordBonus (w : Str) : ℚ :=
  if nounSuffixes.any (fun suf => pyEndsWith suf w) then 3/2 else 1

/-- Python `str.isdigit()` (ASCII fragment): nonempty and all digits. -/
def pyIsDigitStr (w : Str) : Bool := !w.isEmpty && w.all Char.isDigit

/-- One step of building `keyword_weights`: a `dict` keyed by token, updated
in place for existing keys and appended for new ones (Python dicts
preserve insertion order). -/
def addWeight (m : List (Str × ℚ)) (w : Str) (d : ℚ) : List (Str × ℚ) :=
  match m with
  | [] => [(w, d)]
  | (k, v) :: rest => if k = w then (k, v + d) :: rest else (k, v) :: addWeight rest w d

/-- The `keyword_weights` dict of `_extract_keywords`, as an insertion-ordered
association list. -/
def buildWeights (ws : List Str) : List (Str × ℚ) :=
  ws.foldl (fun m w => addWeight m w (keywordBonus w)) []

/-- The `filtered` token list of `_extract_keywords`: lowercase, replace
everything but `[a-z\s]` by a space, split, keep tokens longer than 3
that are neither stop words nor numeric. -/
def keywordFiltered (text : Str) : List Str :=
  let t := (pyLower text).map (fun c => if ('a' ≤ c ∧ c ≤ 'z') ∨ pyIsSpace c then c else ' ')
  (pySplitWs t).filter (fun w => 3 < w.length && !(w ∈ stopWords) && !pyIsDigitStr w)

/-- `SummarizeModule._extract_keywords`. -/
def extractKeywords (text : Str) (topN : ℕ := 10) : List Str :=
  if text = [] then []
  else ((sortD Prod.snd (buildWeights (keywordFiltered text))).take topN).map Prod.fst

/-- Lexicographic order on character lists (by code point), used to give
Python `set` objects a deterministic, content-only iteration order in
this model (CPython iterates a hash order that is likewise a function of
the stored elements). -/
def strLe : Str → Str → Bool
  | [], _ => true
  | _ :: _, [] => false
  | a :: as, b :: bs => if a = b then strLe as bs else decide (a < b)

def insStr (p : Str) : List Str → List Str
  | [] => [p]
  | q :: l => if strLe p q then p :: q :: l else q :: insStr p l

def sortStr : List Str → List Str
  | [] => []
  | p :: l => insStr p (sortStr l)

/-- Model of Python `set(l)` over strings: deduplicated, iterated in the
canonical order above. -/
def pySetOf (l : List Str) : List Str := sortStr l.dedup

/-- Page-content dictionary: the keys read by `generate_abstract` and
`compare_topics`. -/
structure Content where
  title : Option Str := none
  extract : Option Str := none
  content : Option Str := none
deriving DecidableEq, Repr

/-- `content.get('extract', '') or content.get('content', '')`. -/
def extractOrContent (c : Content) : Str :=
  let e := c.extract.getD []
  if e ≠ [] then e else c.content.getD []

/-- `SummarizeModule.generate_abstract`. -/
def generateAbstract (c : Content) : Str :=
  let extract := extractOrContent c
  if extract = [] then
    "Article about ".data ++ c.title.getD "the topic".data ++ ".".data
  else
    let sentences := splitSentences extract
    if sentences ≠ [] then List.intercalate [' '] (sentences.take 2)
    else extract.take 200 ++ "...".data

/-- `f"{d.get('title')}"`: a missing title renders as `"None"`. -/
def pyShowOptStr (o : Option Str) : Str := o.getD "None".data

/-- The comparison dictionary returned by `compare_topics`. -/
structure Comparison where
  topic1 : Str
  topic2 : Str
  similarities : List Str
  differences : List Str
deriving DecidableEq, Repr

/-- `SummarizeModule.compare_topics`. -/
def compareTopics (c1 c2 : Content) (numPoints : ℕ) : Comparison :=
  let kws1 := extractKeywords (extractOrContent c1)
  let kws2 := extractKeywords (extractOrContent c2)
  let s1 := pySetOf kws1
  let s2 := pySetOf kws2
  let common := s1.filter (fun w => w ∈ s2)
  let unique1 := s1.filter (fun w => w ∉ s2)
  let unique2 := s2.filter (fun w => w ∉ s1)
  { topic1 := c1.title.getD "Topic 1".data
    topic2 := c2.title.getD "Topic 2".data
    similarities := (common.take (numPoints / 2)).map (fun kw => "Both involve ".data ++ kw)
    differences :=
      (unique1.take (numPoints / 2)).map
        (fun kw => pyShowOptStr c1.title ++ " relates to ".data ++ kw)
      ++ (unique2.take (numPoints / 2)).map
        (fun kw => pyShowOptStr c2.title ++ " relates to ".data ++ kw) }

/-- Python `dict` lookup on the association-list model. -/
def lookupW : List (Str × ℚ) → Str → Option ℚ
  | [], _ => none
  | (k, v) :: rest, w => if k = w then some v else lookupW rest w

/-- The accumulated weight of a token, 0 if absent (`keyword_weights.get`). -/
def wtOf (text : Str) (w : Str) : ℚ :=
  (lookupW (buildWeights (keywordFiltered text)) w).getD 0

/-- First-seen order of the distinct elements of a list (the key order of a
Python dict built by repeated insertion). -/
def seenOrder : List Str → List Str
  | [] => []
  | w :: ws => w :: (seenOrder ws).filter (fun x => x ≠ w)

/-- Index of the first occurrence of `x` (Python `list.index`). -/
def idxOfStr (x : Str) : List Str → ℕ
  | [] => 0
  | y :: rest => if y = x then 0 else idxOfStr x rest + 1

def contentAlphaW : Content :=
  { title := some "Alphabet".data,
    extract := some "alphabet letters alphabet glyph glyph letters".data }

def contentZebraW : Content :=
  { title := some "Zebra".data,
    extract := some "zebra stripes zebra savanna stripes".data }

/-! ### Concrete inputs used by counterexamples and witnesses -/

/-- An Introduction section text of more than 150 words mentioning 1990,
as in the C1 scenario. -/
def introTextC1 : Str := "The organization was founded in 1990 by a group of researchers from several European universities. It developed many important programs that supported open access to scientific knowledge across the whole world. The founders believed that shared infrastructure would reduce costs and improve the quality of published research. During the following decade the organization created regional offices in twelve countries and hired many specialists. Its annual conference became a major event that attracted thousands of participants from universities and industry. The first major project produced a catalogue of digital resources used by libraries in many countries. Later projects focused on standards for metadata and on tools for long term digital preservation. The organization also pioneered new models for funding community infrastructure through consortium membership and national agreements. Critics sometimes argued that the governance structure was slow and that decisions favored larger institutions. Nevertheless the organization remained influential and its recommendations shaped policy in many national research systems.".data

def introSectionC1 : Section :=
  { heading := some "Introduction".data, text := some introTextC1 }

def seeAlsoSectionC1 : Section :=
  { heading := some "See Also".data, text := some "List of related topics".data }

def longHeadSectionC2 : Section :=
  { heading := some "Historical Background Of The International Organization Grouping".data,
    text := some "relates to the wider historical development of many large international scientific organizations active worldwide today.".data }

def alphaSectionC3 : Section :=
  { heading := some "Alpha".data,
    text := some "Involves the significant development of important international programs founded in 1990 and 1995 worldwide.".data }

def betaSectionC3 : Section :=
  { heading := some "Beta".data,
    text := some "Paris is the capital of France since the year 1800 today.".data }

/-- The concrete `medium` bullet produced by `generateBullets [longHeadSectionC2] 1`. -/
def mediumBulletW : Bullet :=
  ⟨"Historical Background Of The International Organization Grouping".data ++ ": ".data ++
      ("relates to the wider historical development of many large international scientific organizations active worldwide today.".data.take 100),
   "Historical Background Of The International Organization Grouping".data, [], 13,
   Quality.medium⟩

/-- The concrete `high` bullet produced by `generateBullets [betaSectionC3] 3`. -/
def betaHighBulletW : Bullet :=
  ⟨"Paris is the capital of France since the year 1800 today.".data, "Beta".data, [],
   2746/165, Quality.high⟩

/-! ### General lemmas about the engine -/

theorem dropWhile_space_spec (p : Char → Bool) (hps : p ' ' = false)
    (hpn : ∀ c : Char, c ≠ ' ' → p c = true) :
    ∀ r : Str, ' ' ∈ r →
      ∃ u w, r = w ++ ' ' :: u ∧ (∀ c ∈ w, c ≠ ' ') ∧ r.dropWhile p = ' ' :: u := by
  intro r
  induction r with
  | nil => intro hr; cases hr
  | cons c rest ih =>
    intro hr
    by_cases hc : c = ' '
    · subst hc
      refine ⟨rest, [], rfl, by simp, ?_⟩
      rw [List.dropWhile_cons, hps]
      simp
    · have hr2 : ' ' ∈ rest := by
        rcases List.mem_cons.mp hr with h | h
        · exact absurd h.symm hc
        · exact h
      obtain ⟨u, w, hru, hw, hdw⟩ := ih hr2
      refine ⟨u, c :: w, by simp [hru], ?_, ?_⟩
      · intro x hx
        rcases List.mem_cons.mp hx with h | h
        · subst h; exact hc
        · exact hw x h
      · rw [List.dropWhile_cons, hpn c hc]
        simpa using hdw

/-- When the truncation window contains a space, `rsplit(' ', 1)[0]` keeps a
prefix that ends exactly at a space of the original string — i.e. at a
word boundary — and is strictly shorter. -/
theorem rsplitInit_spec (t : Str) (ht : ' ' ∈ t) :
    rsplitInit t ++ [' '] <+: t ∧ (rsplitInit t).length < t.length := by
  have hrev : ' ' ∈ t.reverse := by simpa using ht
  obtain ⟨u, w, hru, hw, hdw⟩ :=
    dropWhile_space_spec (fun c => c ≠ ' ') (by simp) (fun c hc => by simpa using hc)
      t.reverse hrev
  have ht2 : t = u.reverse ++ ' ' :: w.reverse := by
    have h := congrArg List.reverse hru
    simpa [List.reverse_append] using h
  rw [rsplitInit, if_pos ht, hdw]
  constructor
  · exact ⟨w.reverse, by simpa using ht2.symm⟩
  · have hlen : t.length = u.length + 1 + w.length := by
      rw [ht2]; simp; omega
    simp [hlen]
    omega

theorem rsplitInit_length_le (t : Str) : (rsplitInit t).length ≤ t.length := by
  by_cases h : ' ' ∈ t
  · exact le_of_lt (rsplitInit_spec t h).2
  · rw [rsplitInit, if_neg h]

theorem truncate150_length_le (s : Str) : (truncate150 s).length ≤ 153 := by
  rw [truncate150]
  have h1 : (rsplitInit (s.take 150)).length ≤ 150 :=
    le_trans (rsplitInit_length_le _) (List.length_take_le _ _)
  have h3 : ("...".data : Str).length = 3 := rfl
  rw [List.length_append, h3]
  omega

/-- Every string `_extract_key_sentence` returns has length at most
150 + 3. -/
theorem extractKeySentence_length_le (t c : Str) :
    (extractKeySentence t c).length ≤ 153 := by
  rw [extractKeySentence]
  split
  · simp
  · dsimp only
    split
    · rename_i best hbest
      split
      · exact truncate150_length_le _
      · rename_i hlen; omega
    · split
      · rename_i sent hsent
        split
        · exact truncate150_length_le _
        · rename_i hlen; omega
      · exact le_trans (List.length_take_le _ _) (by norm_num)

/-- Every bullet produced by the first pass is `high`-quality with a text
within the 153-character cap. -/
theorem mem_firstPass (num : ℕ) :
    ∀ (l : List (ℚ × Section)) (count : ℕ) (b : Bullet),
      b ∈ firstPass num count l → b.quality = Quality.high ∧ b.text.length ≤ 153 := by
  intro l
  induction l with
  | nil => intro count b hb; simp [firstPass] at hb
  | cons p rest ih =>
    intro count b hb
    obtain ⟨sc, s⟩ := p
    rw [firstPass] at hb
    dsimp only at hb
    split at hb
    · split at hb
      · rcases List.mem_singleton.mp hb with rfl
        exact ⟨rfl, extractKeySentence_length_le _ _⟩
      · rcases List.mem_cons.mp hb with rfl | h
        · exact ⟨rfl, extractKeySentence_length_le _ _⟩
        · exact ih _ _ h
    · exact ih _ _ hb

/-- Every bullet produced by the fallback pass is `medium`-quality, from a
non-excluded heading, with text `"{heading}: {text[:100]}"`. -/
theorem mem_secondPass (num : ℕ) :
    ∀ (l : List (ℚ × Section)) (count : ℕ) (b : Bullet),
      b ∈ secondPass num count l →
        b.quality = Quality.medium ∧
        pyLower b.sectionHeading ∉ excludedFallbackHeadings ∧
        b.text.length ≤ b.sectionHeading.length + 102 := by
  intro l
  induction l with
  | nil => intro count b hb; simp [secondPass] at hb
  | cons p rest ih =>
    intro count b hb
    obtain ⟨sc, s⟩ := p
    rw [secondPass] at hb
    split at hb
    · simp at hb
    · dsimp only at hb
      split at hb
      · exact ih _ _ hb
      · rcases List.mem_cons.mp hb with rfl | h
        · refine ⟨rfl, by assumption, ?_⟩
          have h100 := List.length_take_le 100 ((s.text.getD []))
          have h2 : (": ".data : Str).length = 2 := rfl
          simp only [List.length_append, h2]
          omega
        · exact ih _ _ h

/-- Case split for membership in `generate_bullets` output. -/
theorem mem_generateBullets_cases (sections : List Section) (num : ℕ) (b : Bullet)
    (hb : b ∈ generateBullets sections num) :
    (b.quality = Quality.high ∧ b.text.length ≤ 153) ∨
    (b.quality = Quality.medium ∧ pyLower b.sectionHeading ∉ excludedFallbackHeadings ∧
      b.text.length ≤ b.sectionHeading.length + 102) := by
  rw [generateBullets] at hb
  split at hb
  · simp at hb
  · dsimp only at hb
    split at hb
    · exact Or.inl (mem_firstPass _ _ _ _ (List.mem_of_mem_take hb))
    · rcases List.mem_append.mp hb with h | h
      · exact Or.inl (mem_firstPass _ _ _ _ h)
      · exact Or.inr (mem_secondPass _ _ _ _ h)

theorem insD_perm {α : Type} (key : α → ℚ) (p : α) :
    ∀ l : List α, List.Perm (insD key p l) (p :: l) := by
  intro l
  induction l with
  | nil => exact List.Perm.refl _
  | cons q rest ih =>
    rw [insD]
    split
    · exact List.Perm.refl _
    · exact List.Perm.trans (List.Perm.cons q ih) (List.Perm.swap p q rest)

theorem sortD_perm {α : Type} (key : α → ℚ) :
    ∀ l : List α, List.Perm (sortD key l) l := by
  intro l
  induction l with
  | nil => exact List.Perm.refl _
  | cons p rest ih =>
    rw [sortD]
    exact List.Perm.trans (insD_perm key p _) (List.Perm.cons p ih)

/-- When every scored section passes the first-pass quality filter, the
first pass yields one bullet per section until the target is reached. -/
theorem firstPass_length_of_accepted (num : ℕ) :
    ∀ (l : List (ℚ × Section)) (count : ℕ),
      (∀ p ∈ l,
        extractKeySentence (p.2.text.getD []) (p.2.heading.getD "Section".data) ≠ [] ∧
        isGenericBullet
          (extractKeySentence (p.2.text.getD []) (p.2.heading.getD "Section".data)) = false) →
      count < num →
      (firstPass num count l).length = min (num - count) l.length := by
  intro l
  induction l with
  | nil => intro count h hc; simp [firstPass]
  | cons p rest ih =>
    intro count h hc
    obtain ⟨sc, s⟩ := p
    rw [firstPass]
    dsimp only
    rw [if_pos (h (sc, s) (List.mem_cons_self _ _))]
    split
    · rename_i hstop
      have h1 : num - count = 1 := by omega
      simp [h1]
    · rename_i hgo
      have hlt : count + 1 < num := by omega
      rw [List.length_cons,
        ih (count + 1) (fun q hq => h q (List.mem_cons_of_mem _ hq)) hlt,
        List.length_cons]
      omega

/-! ### C1 -/

/-- C1 is false on the code: on the two-section scenario input itself (an
Introduction text of more than 150 words mentioning 1990, plus a
"See Also" section, targetCount 3) `generate_bullets` returns 2 bullets,
not 1, and one of them is a `high`-quality bullet whose source section is
the hard-excluded heading "See Also": the -100 sentinel only ranks such
sections last, and the first pass still reaches them when the other
sections produce fewer than `targetCount` high bullets. -/
theorem c1_counterexample :
    150 < (pySplitWs introTextC1).length ∧
    containsSub "1990".data introTextC1 = true ∧
    (generateBullets [introSectionC1, seeAlsoSectionC1] 3).length ≠ 1 ∧
    ∃ b ∈ generateBullets [introSectionC1, seeAlsoSectionC1] 3,
      b.quality = Quality.high ∧ pyLower b.sectionHeading = "see also".data := by
  decide

/-- C1 amended: the exclusion set {references, see also, notes, external
links} is enforced only for `medium`-quality fallback bullets; a
hard-excluded heading merely scores -100 and ranks last, and can still
source a `high`-quality bullet once the non-excluded sections are
exhausted below the target count.  On the scenario input the result is 2
bullets: the Introduction sentence and a second high bullet from
"See Also". -/
theorem c1_amended :
    (∀ sections num b, b ∈ generateBullets sections num → b.quality = Quality.medium →
      pyLower b.sectionHeading ∉ excludedFallbackHeadings) ∧
    (generateBullets [introSectionC1, seeAlsoSectionC1] 3).map
        (fun b => (b.sectionHeading, b.quality)) =
      [("Introduction".data, Quality.high), ("See Also".data, Quality.high)] := by
  constructor
  · intro sections num b hb hm
    rcases mem_generateBullets_cases sections num b hb with ⟨hq, _⟩ | ⟨_, hex, _⟩
    · rw [hm] at hq; exact Quality.noConfusion hq
    · exact hex
  · decide

/-- Witness for C1 amended at a concrete medium bullet. -/
theorem c1_witness : pyLower mediumBulletW.sectionHeading ∉ excludedFallbackHeadings :=
  c1_amended.1 [longHeadSectionC2] 1 mediumBulletW (by decide) rfl

/-! ### C2 -/

/-- C2 is false on the code: a `medium`-quality bullet is
`"{heading}: {text[:100]}"` with no 150-character cap, so a single section
with a 64-character heading and a first-pass-rejected text already yields
a bullet text of length 166 > 150 + 3. -/
theorem c2_counterexample :
    ∃ b ∈ generateBullets [longHeadSectionC2] 1,
      150 + "...".data.length < b.text.length := by
  decide

/-- C2 amended: the 150 + ellipsis cap and the word-boundary truncation law
hold for `high`-quality bullets (whose text always comes from
`_extract_key_sentence`); a `medium`-quality bullet is only bounded by
its heading length + 102, since `"{heading}: {text[:100]}"` is never
re-truncated.  When the 150-character window contains a space, the kept
prefix ends at a word boundary of the sentence (a single word longer
than 150 characters is cut mid-word, the documented fallback). -/
theorem c2_amended :
    (∀ sections num b, b ∈ generateBullets sections num →
      (b.quality = Quality.high → b.text.length ≤ 153) ∧
      (b.quality = Quality.medium → b.text.length ≤ b.sectionHeading.length + 102)) ∧
    (∀ s : Str, 150 < s.length → ' ' ∈ s.take 150 →
      rsplitInit (s.take 150) ++ [' '] <+: s ∧ (truncate150 s).length ≤ 153) := by
  constructor
  · intro sections num b hb
    rcases mem_generateBullets_cases sections num b hb with ⟨hq, hl⟩ | ⟨hq, _, hl⟩
    · exact ⟨fun _ => hl, fun hm => by rw [hq] at hm; exact Quality.noConfusion hm⟩
    · exact ⟨fun hh => by rw [hq] at hh; exact Quality.noConfusion hh, fun _ => hl⟩
  · intro s hs hsp
    have h1 := rsplitInit_spec (s.take 150) hsp
    exact ⟨h1.1.trans (List.take_prefix _ _), truncate150_length_le s⟩

/-- Witness for C2 amended at concrete bullets and a concrete long string. -/
theorem c2_witness :
    betaHighBulletW.text.length ≤ 153 ∧
    mediumBulletW.text.length ≤ mediumBulletW.sectionHeading.length + 102 ∧
    rsplitInit (introTextC1.take 150) ++ [' '] <+: introTextC1 :=
  ⟨(c2_amended.1 [betaSectionC3] 3 betaHighBulletW (by decide)).1 rfl,
   (c2_amended.1 [longHeadSectionC2] 1 mediumBulletW (by decide)).2 rfl,
   (c2_amended.2 introTextC1 (by decide) (by decide)).1⟩

/-! ### C3 -/

/-- C3 is false on the code: the fallback pass iterates
`scored_sections[len(section_bullets):]`, skipping by the count of
accepted bullets rather than the set of consumed sections.  With a
higher-ranked section "Alpha" rejected by the first pass (its extracted
sentence starts with "involves") and "Beta" accepted, "Beta" contributes
both a `high` and a `medium` bullet, while the rejected "Alpha" — whose
heading is not excluded — never becomes eligible for a medium bullet. -/
theorem c3_counterexample :
    (∃ b1 ∈ generateBullets [alphaSectionC3, betaSectionC3] 3,
     ∃ b2 ∈ generateBullets [alphaSectionC3, betaSectionC3] 3,
      b1.sectionHeading = b2.sectionHeading ∧
      b1.quality = Quality.high ∧ b2.quality = Quality.medium) ∧
    pyLower "Alpha".data ∉ excludedFallbackHeadings ∧
    ∀ b ∈ generateBullets [alphaSectionC3, betaSectionC3] 3,
      b.sectionHeading ≠ "Alpha".data := by
  decide

/-- C3 amended: the fallback pass iterates the sorted sections from the
index equal to the number of collected high bullets, which coincides with
the unconsumed sections exactly when the first pass rejected nothing.  In
that case the first pass either hits the target or consumes every
section, so the fallback contributes nothing: every returned bullet is
`high`-quality and no section heading carries both a high and a medium
bullet.  (The counterexample shows both parts fail once a section is
rejected.) -/
theorem c3_amended (sections : List Section) (num : ℕ)
    (hacc : ∀ s ∈ sections, s.text.getD [] ≠ [] →
      extractKeySentence (s.text.getD []) (s.heading.getD "Section".data) ≠ [] ∧
      isGenericBullet (extractKeySentence (s.text.getD []) (s.heading.getD "Section".data)) = false) :
    (∀ b ∈ generateBullets sections num, b.quality = Quality.high) ∧
    ∀ h : Str, ¬ ((∃ b1 ∈ generateBullets sections num,
          b1.sectionHeading = h ∧ b1.quality = Quality.high) ∧
        (∃ b2 ∈ generateBullets sections num,
          b2.sectionHeading = h ∧ b2.quality = Quality.medium)) := by
  have hmain : ∀ b ∈ generateBullets sections num, b.quality = Quality.high := by
    intro b hb
    rw [generateBullets] at hb
    split at hb
    · simp at hb
    · dsimp only at hb
      split at hb
      · exact (mem_firstPass _ _ _ _ (List.mem_of_mem_take hb)).1
      · rename_i hlt
        have hAll : ∀ p ∈ sortD Prod.fst (sections.filterMap (fun s =>
            if s.text.getD [] ≠ [] then some (scoreSection s, s) else none)),
            extractKeySentence (p.2.text.getD []) (p.2.heading.getD "Section".data) ≠ [] ∧
            isGenericBullet (extractKeySentence (p.2.text.getD [])
              (p.2.heading.getD "Section".data)) = false := by
          intro p hp
          have hmem : p ∈ sections.filterMap (fun s =>
              if s.text.getD [] ≠ [] then some (scoreSection s, s) else none) :=
            ((sortD_perm Prod.fst _).mem_iff).mp hp
          obtain ⟨a, ha, hfa⟩ := List.mem_filterMap.mp hmem
          by_cases hta : a.text.getD [] ≠ []
          · rw [if_pos hta] at hfa
            obtain rfl := Option.some_injective _ hfa
            exact hacc a ha hta
          · rw [if_neg hta] at hfa
            exact absurd hfa (by simp)
        have h0 : 0 < num := by omega
        have hlen := firstPass_length_of_accepted num _ 0 hAll h0
        rw [Nat.sub_zero] at hlen
        have hfp : (firstPass num 0 (sortD Prod.fst (sections.filterMap (fun s =>
            if s.text.getD [] ≠ [] then some (scoreSection s, s) else none)))).length =
            (sortD Prod.fst (sections.filterMap (fun s =>
              if s.text.getD [] ≠ [] then some (scoreSection s, s) else none))).length := by
          omega
        rw [hfp, List.drop_length] at hb
        rw [show secondPass num (sortD Prod.fst (sections.filterMap (fun s =>
            if s.text.getD [] ≠ [] then some (scoreSection s, s) else none))).length [] = []
          from rfl, List.append_nil] at hb
        exact (mem_firstPass _ _ _ _ hb).1
  refine ⟨hmain, ?_⟩
  rintro h ⟨⟨b1, hb1, hh1, hq1⟩, ⟨b2, hb2, hh2, hq2⟩⟩
  have hq := hmain b2 hb2
  rw [hq2] at hq
  exact Quality.noConfusion hq

/-- Witness for C3 amended at a concrete all-accepted input. -/
theorem c3_witness : betaHighBulletW.quality = Quality.high :=
  (c3_amended [betaSectionC3] 3 (by decide)).1 betaHighBulletW (by decide)

/-! ### C4 -/

theorem secondPass_length_le (num : ℕ) :
    ∀ (l : List (ℚ × Section)) (count : ℕ),
      (secondPass num count l).length ≤ num - count := by
  intro l
  induction l with
  | nil => intro count; simp [secondPass]
  | cons p rest ih =>
    intro count
    obtain ⟨sc, s⟩ := p
    rw [secondPass]
    split
    · simp
    · rename_i h
      dsimp only
      split
      · exact le_trans (ih count) (by omega)
      · have := ih (count + 1)
        simp only [List.length_cons]
        omega

/-- C4: for every target count and any list of sections — empty text and
missing fields included — `generate_bullets` returns at most
`targetCount` bullets. -/
theorem c4_generateBullets_length_le (sections : List Section) (numBullets : ℕ) :
    (generateBullets sections numBullets).length ≤ numBullets := by
  rw [generateBullets]
  split
  · simp
  · dsimp only
    split
    · exact List.length_take_le _ _
    · rename_i hlt
      rw [List.length_append]
      have h2 := secondPass_length_le numBullets
        ((sortD Prod.fst (sections.filterMap (fun s =>
          if s.text.getD [] ≠ [] then some (scoreSection s, s) else none))).drop
            (firstPass numBullets 0 (sortD Prod.fst (sections.filterMap (fun s =>
              if s.text.getD [] ≠ [] then some (scoreSection s, s) else none)))).length)
        (firstPass numBullets 0 (sortD Prod.fst (sections.filterMap (fun s =>
          if s.text.getD [] ≠ [] then some (scoreSection s, s) else none)))).length
      omega

/-! ### C5 -/

theorem foldl_add_nonneg (l : List (Str × ℚ)) (h : ∀ kv ∈ l, 0 ≤ kv.2) :
    ∀ a : ℚ, 0 ≤ a → 0 ≤ l.foldl (fun acc kv => acc + kv.2) a := by
  induction l with
  | nil => intro a ha; simpa
  | cons kv rest ih =>
    intro a ha
    exact ih (fun x hx => h x (List.mem_cons_of_mem _ hx)) _
      (add_nonneg ha (h kv (List.mem_cons_self _ _)))

theorem scoreSection_nonneg_of_not_skip (s : Section)
    (h : pyLower (s.heading.getD []) ∉ skipHeadings) : 0 ≤ scoreSection s := by
  rw [scoreSection]
  simp only [if_neg h]
  have h1 : (0:ℚ) ≤ pyMinQ 15 (((pySplitWs (s.text.getD [])).length : ℚ) / 15) := by
    rw [pyMinQ]
    split
    · norm_num
    · positivity
  have h2 : (0:ℚ) ≤ ((pySplitWs (pyLower (s.text.getD []))).dedup.length : ℚ) /
      ((pyMaxN (pySplitWs (pyLower (s.text.getD []))).length 1 : ℕ) : ℚ) * 12 := by
    positivity
  have h3 : (0:ℚ) ≤ (if hasDigit (s.text.getD []) then (5:ℚ) else 0) := by
    split <;> norm_num
  have h4 : (0:ℚ) ≤ (if hasYear (s.text.getD []) then (4:ℚ) else 0) := by
    split <;> norm_num
  have h5 : (0:ℚ) ≤ (contentKeywords.filter
      (fun kv => containsSub kv.1 (pyLower (s.text.getD [])))).foldl
        (fun acc kv => acc + kv.2) 0 := by
    refine foldl_add_nonneg _ (fun kv hkv => ?_) 0 le_rfl
    have hmem : kv ∈ contentKeywords := List.mem_of_mem_filter hkv
    have hall : ∀ kv ∈ contentKeywords, (0:ℚ) ≤ kv.2 := by decide
    exact hall kv hmem
  have h6 : (0:ℚ) ≤ (if pyLower (s.heading.getD []) ∈
      ["introduction".data, "overview".data, "background".data, "history".data]
      then (3:ℚ) else 0) := by
    split <;> norm_num
  have h7 : (0:ℚ) ≤ (if pyLower (s.heading.getD []) ∈
      ["early life".data, "career".data, "works".data, "achievements".data, "legacy".data]
      then (2:ℚ) else 0) := by
    split <;> norm_num
  dsimp only
  positivity

/-- C5: a section whose lowercased heading is hard-excluded scores exactly
-100 regardless of its text; any other section scores at least 0; hence a
hard-excluded section always scores strictly below a non-excluded one. -/
theorem c5_score_hard_exclusion (s t : Section) :
    (pyLower (s.heading.getD []) ∈ skipHeadings → scoreSection s = -100) ∧
    (pyLower (t.heading.getD []) ∉ skipHeadings → 0 ≤ scoreSection t) ∧
    (pyLower (s.heading.getD []) ∈ skipHeadings →
      pyLower (t.heading.getD []) ∉ skipHeadings →
      scoreSection s < scoreSection t) := by
  refine ⟨fun hs => ?_, fun ht => scoreSection_nonneg_of_not_skip t ht, fun hs ht => ?_⟩
  · rw [scoreSection]; simp [hs]
  · have h1 : scoreSection s = -100 := by rw [scoreSection]; simp [hs]
    have h2 := scoreSection_nonneg_of_not_skip t ht
    rw [h1]
    linarith

/-- Witness for C5 at concrete sections: the scenario section
`{heading: "References", text: "A B C D E F G H"}` scores exactly -100 and
below a plain Introduction section. -/
theorem c5_witness :
    scoreSection { heading := some "References".data, text := some "A B C D E F G H".data } = -100 ∧
    scoreSection { heading := some "References".data, text := some "A B C D E F G H".data } <
      scoreSection { heading := some "Introduction".data, text := some "Short intro text here.".data } :=
  ⟨(c5_score_hard_exclusion
      { heading := some "References".data, text := some "A B C D E F G H".data }
      { heading := some "Introduction".data, text := some "Short intro text here.".data }).1
      (by decide),
   (c5_score_hard_exclusion
      { heading := some "References".data, text := some "A B C D E F G H".data }
      { heading := some "Introduction".data, text := some "Short intro text here.".data }).2.2
      (by decide) (by decide)⟩

/-! ### C6 and C7: topic comparison -/

theorem strLe_refl : ∀ a : Str, strLe a a = true := by
  intro a
  induction a with
  | nil => rfl
  | cons c rest ih => rw [strLe]; simp [ih]

theorem strLe_total : ∀ a b : Str, strLe a b = true ∨ strLe b a = true := by
  intro a
  induction a with
  | nil => intro b; left; rfl
  | cons c rest ih =>
    intro b
    cases b with
    | nil => right; rfl
    | cons d bs =>
      by_cases hcd : c = d
      · subst hcd
        rw [strLe, strLe]
        simpa using ih bs
      · rcases lt_or_gt_of_ne hcd with h | h
        · left; rw [strLe]; simp [hcd, h]
        · right; rw [strLe]; simp [Ne.symm hcd, not_lt_of_gt h, h]

theorem strLe_antisymm : ∀ a b : Str, strLe a b = true → strLe b a = true → a = b := by
  intro a
  induction a with
  | nil =>
    intro b hab hba
    cases b with
    | nil => rfl
    | cons d bs => exact absurd hba (by rw [strLe]; simp)
  | cons c rest ih =>
    intro b hab hba
    cases b with
    | nil => exact absurd hab (by rw [strLe]; simp)
    | cons d bs =>
      by_cases hcd : c = d
      · subst hcd
        rw [strLe] at hab hba
        simp only [if_pos rfl] at hab hba
        rw [ih bs hab hba]
      · rw [strLe, if_neg hcd] at hab
        rw [strLe, if_neg (Ne.symm hcd)] at hba
        simp at hab hba
        exact absurd (lt_trans hab hba) (lt_irrefl c)

theorem strLe_trans : ∀ a b c : Str, strLe a b = true → strLe b c = true → strLe a c = true := by
  intro a
  induction a with
  | nil => intro b c _ _; rfl
  | cons x xs ih =>
    intro b c hab hbc
    cases b with
    | nil => exact absurd hab (by rw [strLe]; simp)
    | cons y ys =>
      cases c with
      | nil => exact absurd hbc (by rw [strLe]; simp)
      | cons z zs =>
        by_cases hxy : x = y
        · subst hxy
          rw [strLe, if_pos rfl] at hab
          by_cases hyz : x = z
          · subst hyz
            rw [strLe, if_pos rfl] at hbc ⊢
            exact ih ys zs hab hbc
          · rw [strLe, if_neg hyz] at hbc ⊢
            exact hbc
        · rw [strLe, if_neg hxy] at hab
          simp at hab
          by_cases hyz : y = z
          · subst hyz
            rw [strLe, if_neg hxy]
            simpa using hab
          · rw [strLe, if_neg hyz] at hbc
            simp at hbc
            have hxz : x < z := lt_trans hab hbc
            rw [strLe, if_neg (ne_of_lt hxz)]
            simpa using hxz

theorem insStr_perm (p : Str) : ∀ l : List Str, List.Perm (insStr p l) (p :: l) := by
  intro l
  induction l with
  | nil => exact List.Perm.refl _
  | cons q rest ih =>
    rw [insStr]
    split
    · exact List.Perm.refl _
    · exact List.Perm.trans (List.Perm.cons q ih) (List.Perm.swap p q rest)

theorem sortStr_perm : ∀ l : List Str, List.Perm (sortStr l) l := by
  intro l
  induction l with
  | nil => exact List.Perm.refl _
  | cons p rest ih =>
    rw [sortStr]
    exact List.Perm.trans (insStr_perm p _) (List.Perm.cons p ih)

theorem insStr_sorted (p : Str) :
    ∀ l : List Str, List.Pairwise (fun a b => strLe a b = true) l →
      List.Pairwise (fun a b => strLe a b = true) (insStr p l) := by
  intro l
  induction l with
  | nil => intro _; simp [insStr]
  | cons q rest ih =>
    intro hl
    rw [insStr]
    split
    · rename_i hpq
      refine List.Pairwise.cons ?_ hl
      intro x hx
      rcases List.mem_cons.mp hx with rfl | hx
      · exact hpq
      · exact strLe_trans p q x hpq (List.rel_of_pairwise_cons hl hx)
    · rename_i hpq
      have hqp : strLe q p = true := by
        rcases strLe_total p q with h | h
        · exact absurd h hpq
        · exact h
      refine List.Pairwise.cons ?_ (ih (List.Pairwise.of_cons hl))
      intro x hx
      have hx2 : x = p ∨ x ∈ rest := by
        have := (insStr_perm p rest).mem_iff.mp hx
        simpa using this
      rcases hx2 with rfl | hx2
      · exact hqp
      · exact List.rel_of_pairwise_cons hl hx2

theorem sortStr_sorted : ∀ l : List Str,
    List.Pairwise (fun a b => strLe a b = true) (sortStr l) := by
  intro l
  induction l with
  | nil => simp [sortStr]
  | cons p rest ih =>
    rw [sortStr]
    exact insStr_sorted p _ ih

theorem mem_pySetOf (l : List Str) (x : Str) : x ∈ pySetOf l ↔ x ∈ l := by
  rw [pySetOf]
  rw [(sortStr_perm l.dedup).mem_iff]
  exact List.mem_dedup

theorem pySetOf_nodup (l : List Str) : (pySetOf l).Nodup := by
  rw [pySetOf]
  exact (sortStr_perm l.dedup).nodup_iff.mpr (List.nodup_dedup l)

theorem pySetOf_sorted (l : List Str) :
    List.Pairwise (fun a b => strLe a b = true) (pySetOf l) :=
  sortStr_sorted l.dedup

/-- C6: the similarities of `compare_topics` are, as a set of strings,
symmetric in the two topics (the common-keyword set is commutative; in
the model the two intersection lists are even equal element-for-element,
since the set iteration order is a function of the set contents). -/
theorem c6_compare_similarities_symm (c1 c2 : Content) (n : ℕ) :
    ∀ x, x ∈ (compareTopics c1 c2 n).similarities ↔
      x ∈ (compareTopics c2 c1 n).similarities := by
  have hcommon : (pySetOf (extractKeywords (extractOrContent c1))).filter
        (fun w => w ∈ pySetOf (extractKeywords (extractOrContent c2))) =
      (pySetOf (extractKeywords (extractOrContent c2))).filter
        (fun w => w ∈ pySetOf (extractKeywords (extractOrContent c1))) := by
    have hanti : IsAntisymm Str (fun a b => strLe a b = true) := ⟨strLe_antisymm⟩
    apply @List.eq_of_perm_of_sorted Str (fun a b => strLe a b = true) hanti
    · refine (List.perm_ext_iff_of_nodup
        (List.Nodup.filter _ (pySetOf_nodup _)) (List.Nodup.filter _ (pySetOf_nodup _))).mpr ?_
      intro a
      simp only [List.mem_filter, decide_eq_true_eq]
      tauto
    · exact List.Pairwise.filter _ (pySetOf_sorted _)
    · exact List.Pairwise.filter _ (pySetOf_sorted _)
  intro x
  rw [compareTopics, compareTopics]
  dsimp only
  rw [hcommon]

/-- C7: at most `numPoints // 2` similarities and at most
`2 * (numPoints // 2)` differences; with disjoint keyword sets and
`numPoints = 4`, exactly 0 similarities and at most 4 differences. -/
theorem c7_compare_bounds (c1 c2 : Content) (n : ℕ) :
    ((compareTopics c1 c2 n).similarities.length ≤ n / 2 ∧
     (compareTopics c1 c2 n).differences.length ≤ 2 * (n / 2)) ∧
    (n = 4 →
      (∀ w ∈ extractKeywords (extractOrContent c1),
        w ∉ extractKeywords (extractOrContent c2)) →
      (compareTopics c1 c2 n).similarities = [] ∧
      (compareTopics c1 c2 n).differences.length ≤ 4) := by
  constructor
  · constructor
    · rw [compareTopics]
      dsimp only
      rw [List.length_map]
      exact List.length_take_le _ _
    · rw [compareTopics]
      dsimp only
      rw [List.length_append, List.length_map, List.length_map]
      have h1 := List.length_take_le (n / 2) ((pySetOf (extractKeywords (extractOrContent c1))).filter
        (fun w => w ∉ pySetOf (extractKeywords (extractOrContent c2))))
      have h2 := List.length_take_le (n / 2) ((pySetOf (extractKeywords (extractOrContent c2))).filter
        (fun w => w ∉ pySetOf (extractKeywords (extractOrContent c1))))
      omega
  · intro hn hdisj
    have hempty : (pySetOf (extractKeywords (extractOrContent c1))).filter
        (fun w => w ∈ pySetOf (extractKeywords (extractOrContent c2))) = [] := by
      rw [List.filter_eq_nil_iff]
      intro a ha
      have ha1 : a ∈ extractKeywords (extractOrContent c1) := (mem_pySetOf _ _).mp ha
      have ha2 : a ∉ extractKeywords (extractOrContent c2) := hdisj a ha1
      simp only [decide_eq_true_eq]
      intro hmem
      exact ha2 ((mem_pySetOf _ _).mp hmem)
    constructor
    · rw [compareTopics]
      dsimp only
      rw [hempty]
      simp
    · subst hn
      rw [compareTopics]
      dsimp only
      rw [List.length_append, List.length_map, List.length_map]
      have h1 := List.length_take_le (4 / 2) ((pySetOf (extractKeywords (extractOrContent c1))).filter
        (fun w => w ∉ pySetOf (extractKeywords (extractOrContent c2))))
      have h2 := List.length_take_le (4 / 2) ((pySetOf (extractKeywords (extractOrContent c2))).filter
        (fun w => w ∉ pySetOf (extractKeywords (extractOrContent c1))))
      omega

/-- Witness for C7 at concrete disjoint-keyword contents. -/
theorem c7_witness :
    (compareTopics contentAlphaW contentZebraW 4).similarities = [] ∧
    (compareTopics contentAlphaW contentZebraW 4).differences.length ≤ 4 :=
  (c7_compare_bounds contentAlphaW contentZebraW 4).2 rfl (by decide)


/-! ### C9 -/

/-- C9: degenerate input never yields an error, only an empty or placeholder
result: no sections gives no bullets, empty text gives no keywords, and a
content record with neither extract nor content text yields the abstract
"Article about {title}.". -/
theorem c9_degenerate_inputs :
    (∀ n, generateBullets [] n = []) ∧
    (∀ n, extractKeywords [] n = []) ∧
    (∀ c : Content, c.extract.getD [] = [] → c.content.getD [] = [] →
      generateAbstract c = "Article about ".data ++ c.title.getD "the topic".data ++ ".".data) := by
  refine ⟨fun n => by rw [generateBullets]; simp, fun n => by rw [extractKeywords]; simp, ?_⟩
  intro c h1 h2
  rw [generateAbstract]
  have he : extractOrContent c = [] := by
    rw [extractOrContent]
    simp [h1, h2]
  simp [he]

/-- Witness for C9 at a concrete content record with only a title. -/
theorem c9_witness :
    generateAbstract { title := some "Topic X".data } =
      "Article about ".data ++ "Topic X".data ++ ".".data :=
  c9_degenerate_inputs.2.2 { title := some "Topic X".data } rfl rfl

/-! ### C8 machinery: dict weights, first-seen order, stable sort -/

theorem lookupW_addWeight_self (m : List (Str × ℚ)) (w : Str) (d : ℚ) :
    lookupW (addWeight m w d) w = some ((lookupW m w).getD 0 + d) := by
  induction m with
  | nil => simp [addWeight, lookupW]
  | cons kv rest ih =>
    obtain ⟨k, v⟩ := kv
    rw [addWeight]
    by_cases hk : k = w
    · subst hk
      rw [if_pos rfl, lookupW, if_pos rfl, lookupW, if_pos rfl]
      simp [add_comm]
    · rw [if_neg hk, lookupW, if_neg hk, lookupW, if_neg hk, ih]

theorem lookupW_addWeight_ne (m : List (Str × ℚ)) (w x : Str) (d : ℚ) (hx : x ≠ w) :
    lookupW (addWeight m w d) x = lookupW m x := by
  induction m with
  | nil => simp [addWeight, lookupW, Ne.symm hx]
  | cons kv rest ih =>
    obtain ⟨k, v⟩ := kv
    rw [addWeight]
    by_cases hk : k = w
    · subst hk
      rw [if_pos rfl, lookupW, lookupW]
      simp [Ne.symm hx]
    · rw [if_neg hk, lookupW, lookupW, ih]

theorem lookupW_foldl (ws : List Str) :
    ∀ (m : List (Str × ℚ)) (w : Str),
      lookupW (ws.foldl (fun m w => addWeight m w (keywordBonus w)) m) w =
        if w ∈ ws then some ((lookupW m w).getD 0 + (ws.count w : ℚ) * keywordBonus w)
        else lookupW m w := by
  induction ws with
  | nil => intro m w; simp
  | cons u rest ih =>
    intro m w
    rw [List.foldl_cons, ih]
    by_cases hu : u = w
    · subst hu
      rw [if_pos (List.mem_cons_self _ _)]
      rw [lookupW_addWeight_self]
      by_cases hw : u ∈ rest
      · rw [if_pos hw]
        rw [List.count_cons_self]
        have hcast : ((rest.count u + 1 : ℕ) : ℚ) = (rest.count u : ℚ) + 1 := by push_cast; ring
        rw [hcast]
        congr 1
        simp
        ring
      · rw [if_neg hw]
        rw [List.count_cons_self]
        have hc0 : rest.count u = 0 := List.count_eq_zero.mpr hw
        rw [hc0]
        simp
    · rw [lookupW_addWeight_ne m u w _ (Ne.symm hu)]
      by_cases hw : w ∈ rest
      · rw [if_pos hw, if_pos (List.mem_cons_of_mem _ hw)]
        rw [List.count_cons_of_ne (Ne.symm hu)]
      · rw [if_neg hw, if_neg (by simp [hu, hw, Ne.symm hu])]

theorem buildWeights_lookup (ws : List Str) (w : Str) :
    lookupW (buildWeights ws) w =
      if w ∈ ws then some ((ws.count w : ℚ) * keywordBonus w) else none := by
  rw [buildWeights, lookupW_foldl]
  split
  · simp [lookupW]
  · simp [lookupW]
theorem keys_addWeight (m : List (Str × ℚ)) (w : Str) (d : ℚ) :
    (addWeight m w d).map Prod.fst =
      if w ∈ m.map Prod.fst then m.map Prod.fst else m.map Prod.fst ++ [w] := by
  induction m with
  | nil => simp [addWeight]
  | cons kv rest ih =>
    obtain ⟨k, v⟩ := kv
    rw [addWeight]
    by_cases hk : k = w
    · subst hk
      simp
    · rw [if_neg hk]
      simp only [List.map_cons]
      rw [ih]
      by_cases hw : w ∈ rest.map Prod.fst
      · rw [if_pos hw, if_pos (by simp [hw])]
      · rw [if_neg hw, if_neg (by simp [hw, Ne.symm hk])]
        simp

theorem keys_foldl (ws : List Str) :
    ∀ m : List (Str × ℚ),
      (ws.foldl (fun m w => addWeight m w (keywordBonus w)) m).map Prod.fst =
        m.map Prod.fst ++
          (seenOrder ws).filter (fun x => !(decide (x ∈ m.map Prod.fst))) := by
  induction ws with
  | nil => intro m; simp [seenOrder]
  | cons w rest ih =>
    intro m
    rw [List.foldl_cons, ih, keys_addWeight]
    by_cases hw : w ∈ m.map Prod.fst
    · rw [if_pos hw, seenOrder,
        List.filter_cons_of_neg (by simp [hw]), List.filter_filter]
      congr 1
      apply List.filter_congr
      intro x hx
      by_cases hxw : x = w
      · subst hxw; simp [hw]
      · simp [hxw]
    · rw [if_neg hw, seenOrder,
        List.filter_cons_of_pos (by simp [hw]), List.filter_filter,
        List.append_assoc, List.singleton_append]
      congr 1
      congr 1
      apply List.filter_congr
      intro x hx
      by_cases hxw : x = w
      · subst hxw; simp
      · simp [hxw]

theorem keys_buildWeights (ws : List Str) :
    (buildWeights ws).map Prod.fst = seenOrder ws := by
  rw [buildWeights, keys_foldl]
  simp

theorem seenOrder_nodup (ws : List Str) : (seenOrder ws).Nodup := by
  induction ws with
  | nil => simp [seenOrder]
  | cons w rest ih =>
    rw [seenOrder]
    refine List.Nodup.cons ?_ (List.Nodup.filter _ ih)
    intro hmem
    have := List.of_mem_filter hmem
    simp at this

theorem seenOrder_mem (ws : List Str) (x : Str) : x ∈ seenOrder ws ↔ x ∈ ws := by
  induction ws with
  | nil => simp [seenOrder]
  | cons w rest ih =>
    rw [seenOrder]
    constructor
    · intro hx
      rcases List.mem_cons.mp hx with rfl | hx
      · exact List.mem_cons_self _ _
      · exact List.mem_cons_of_mem _ (ih.mp (List.mem_of_mem_filter hx))
    · intro hx
      rcases List.mem_cons.mp hx with rfl | hx
      · exact List.mem_cons_self _ _
      · by_cases hxw : x = w
        · subst hxw; exact List.mem_cons_self _ _
        · exact List.mem_cons_of_mem _
            (List.mem_filter.mpr ⟨ih.mpr hx, by simpa using hxw⟩)

theorem seenOrder_pairwise_idxOf (ws : List Str) :
    List.Pairwise (fun u v => idxOfStr u ws < idxOfStr v ws) (seenOrder ws) := by
  induction ws with
  | nil => simp [seenOrder]
  | cons w rest ih =>
    rw [seenOrder]
    refine List.Pairwise.cons ?_ ?_
    · intro v hv
      have hvw : v ≠ w := by simpa using (List.mem_filter.mp hv).2
      rw [idxOfStr, if_pos rfl, idxOfStr, if_neg (Ne.symm hvw)]
      omega
    · have hpw := List.Pairwise.filter (fun x => x ≠ w) ih
      refine List.Pairwise.imp_of_mem ?_ hpw
      intro u v hu hv hrel
      have huw : u ≠ w := by simpa using (List.mem_filter.mp hu).2
      have hvw : v ≠ w := by simpa using (List.mem_filter.mp hv).2
      rw [idxOfStr, if_neg (Ne.symm huw), idxOfStr, if_neg (Ne.symm hvw)]
      omega

theorem lookupW_of_mem_nodupKeys (m : List (Str × ℚ)) (k : Str) (v : ℚ)
    (hnd : (m.map Prod.fst).Nodup) (hm : (k, v) ∈ m) : lookupW m k = some v := by
  induction m with
  | nil => cases hm
  | cons kv rest ih =>
    obtain ⟨k2, v2⟩ := kv
    rw [List.map_cons, List.nodup_cons] at hnd
    rw [lookupW]
    rcases List.mem_cons.mp hm with heq | hm2
    · cases heq
      simp
    · by_cases hk : k2 = k
      · subst hk
        exact absurd (List.mem_map.mpr ⟨(k2, v), hm2, rfl⟩) hnd.1
      · rw [if_neg hk]
        exact ih hnd.2 hm2

theorem insD_sorted {α : Type} (key : α → ℚ) (p : α) :
    ∀ l : List α, List.Pairwise (fun a b => key b ≤ key a) l →
      List.Pairwise (fun a b => key b ≤ key a) (insD key p l) := by
  intro l
  induction l with
  | nil => intro _; simp [insD]
  | cons q rest ih =>
    intro hl
    rw [insD]
    split
    · rename_i hqp
      refine List.Pairwise.cons ?_ hl
      intro x hx
      rcases List.mem_cons.mp hx with rfl | hx
      · exact hqp
      · exact le_trans (List.rel_of_pairwise_cons hl hx) hqp
    · rename_i hqp
      have hpq : key p ≤ key q := le_of_not_le hqp
      refine List.Pairwise.cons ?_ (ih (List.Pairwise.of_cons hl))
      intro x hx
      have hx2 : x = p ∨ x ∈ rest := by
        have := (insD_perm key p rest).mem_iff.mp hx
        simpa using this
      rcases hx2 with rfl | hx2
      · exact hpq
      · exact List.rel_of_pairwise_cons hl hx2

theorem sortD_sorted {α : Type} (key : α → ℚ) :
    ∀ l : List α, List.Pairwise (fun a b => key b ≤ key a) (sortD key l) := by
  intro l
  induction l with
  | nil => simp [sortD]
  | cons p rest ih =>
    rw [sortD]
    exact insD_sorted key p _ ih

theorem insD_filter {α : Type} (key : α → ℚ) (p : α) (c : ℚ) :
    ∀ l : List α,
      (insD key p l).filter (fun x => key x = c) =
        if key p = c then p :: l.filter (fun x => key x = c)
        else l.filter (fun x => key x = c) := by
  intro l
  induction l with
  | nil =>
    rw [insD]
    by_cases hp : key p = c
    · rw [if_pos hp]
      simp [hp]
    · rw [if_neg hp]
      simp [hp]
  | cons q rest ih =>
    rw [insD]
    split
    · rename_i hqp
      by_cases hp : key p = c
      · rw [if_pos hp, List.filter_cons_of_pos (by simpa using hp)]
      · rw [if_neg hp, List.filter_cons_of_neg (by simpa using hp)]
    · rename_i hqp
      have hplt : key p < key q := lt_of_not_le hqp
      by_cases hq : key q = c
      · rw [List.filter_cons_of_pos (by simpa using hq), ih]
        by_cases hp : key p = c
        · exfalso
          rw [hp, hq] at hplt
          exact lt_irrefl c hplt
        · rw [if_neg hp, if_neg hp, List.filter_cons_of_pos (by simpa using hq)]
      · rw [List.filter_cons_of_neg (by simpa using hq), ih]
        by_cases hp : key p = c
        · rw [if_pos hp, if_pos hp, List.filter_cons_of_neg (by simpa using hq)]
        · rw [if_neg hp, if_neg hp, List.filter_cons_of_neg (by simpa using hq)]

theorem sortD_filter {α : Type} (key : α → ℚ) (c : ℚ) :
    ∀ l : List α,
      (sortD key l).filter (fun x => key x = c) = l.filter (fun x => key x = c) := by
  intro l
  induction l with
  | nil => rfl
  | cons p rest ih =>
    rw [sortD, insD_filter]
    by_cases hp : key p = c
    · rw [if_pos hp, ih, List.filter_cons_of_pos (by simpa using hp)]
    · rw [if_neg hp, ih, List.filter_cons_of_neg (by simpa using hp)]

theorem sortD_pairwise_stable {α : Type} (key : α → ℚ) (R : α → α → Prop)
    (l : List α) (hR : List.Pairwise R l) :
    List.Pairwise (fun a b => key a = key b → R a b) (sortD key l) := by
  rw [List.pairwise_iff_forall_sublist]
  intro a b hab hkey
  have h1 : [a, b].filter (fun x => key x = key b) = [a, b] := by
    simp [hkey]
  have h2 : List.Sublist [a, b] ((sortD key l).filter (fun x => key x = key b)) := by
    have hsub := List.Sublist.filter (fun x => decide (key x = key b)) hab
    rwa [h1] at hsub
  rw [sortD_filter] at h2
  have h3 : List.Sublist [a, b] l := h2.trans (List.filter_sublist l)
  exact List.pairwise_iff_forall_sublist.mp hR h3

/-! ### C8 -/

/-- C8: keyword extraction returns at most `topN` distinct terms; each
term accumulates weight (occurrence count) times (3/2 when it ends in
one of {tion, ment, ness, ism, ity, ble}, else 1); the returned sequence
is sorted by descending accumulated weight, terms of equal weight keep
first-seen order; on the scenario text the suffix bonus yields exactly
[organization, nation, creation] (cat and mat are dropped by the
length-greater-than-3 filter, so the three rank above them). -/
theorem c8_extract_keywords_spec (text : Str) (topN : ℕ) :
    (extractKeywords text topN).length ≤ topN ∧
    (extractKeywords text topN).Nodup ∧
    (∀ w ∈ extractKeywords text topN,
      lookupW (buildWeights (keywordFiltered text)) w =
        some (((keywordFiltered text).count w : ℚ) * keywordBonus w)) ∧
    List.Pairwise (fun u v => wtOf text v ≤ wtOf text u) (extractKeywords text topN) ∧
    List.Pairwise (fun u v => wtOf text u = wtOf text v →
      idxOfStr u (keywordFiltered text) < idxOfStr v (keywordFiltered text))
      (extractKeywords text topN) ∧
    extractKeywords "The cat sat on the mat. Organization, nation, creation.".data 5 =
      ["organization".data, "nation".data, "creation".data] := by
  have hcase : extractKeywords text topN = [] ∨ extractKeywords text topN =
      ((sortD Prod.snd (buildWeights (keywordFiltered text))).take topN).map Prod.fst := by
    rw [extractKeywords]
    split
    · exact Or.inl rfl
    · exact Or.inr rfl
  have hscen : extractKeywords "The cat sat on the mat. Organization, nation, creation.".data 5 =
      ["organization".data, "nation".data, "creation".data] := by decide
  rcases hcase with h | h
  · rw [h]
    refine ⟨by simp, List.nodup_nil, by simp, List.Pairwise.nil, List.Pairwise.nil, hscen⟩
  · have hknd : ((buildWeights (keywordFiltered text)).map Prod.fst).Nodup := by
      rw [keys_buildWeights]
      exact seenOrder_nodup _
    have hmemkw : ∀ p ∈ (sortD Prod.snd (buildWeights (keywordFiltered text))).take topN,
        p ∈ buildWeights (keywordFiltered text) := by
      intro p hp
      exact ((sortD_perm Prod.snd _).mem_iff).mp (List.mem_of_mem_take hp)
    have hwtp : ∀ p ∈ buildWeights (keywordFiltered text), wtOf text p.1 = p.2 := by
      intro p hp
      have hp2 : (p.1, p.2) ∈ buildWeights (keywordFiltered text) := by rwa [Prod.mk.eta]
      rw [wtOf, lookupW_of_mem_nodupKeys _ _ _ hknd hp2]
      rfl
    refine ⟨?_, ?_, ?_, ?_, ?_, hscen⟩
    · rw [h, List.length_map]
      exact List.length_take_le _ _
    · rw [h]
      refine List.Nodup.sublist
        (List.Sublist.map Prod.fst (List.take_sublist _ _)) ?_
      refine ((List.Perm.map Prod.fst (sortD_perm Prod.snd _)).nodup_iff).mpr ?_
      rw [keys_buildWeights]
      exact seenOrder_nodup _
    · intro w hw
      rw [h] at hw
      obtain ⟨p, hp, hpw⟩ := List.mem_map.mp hw
      have hpkw := hmemkw p hp
      have hw1 : w ∈ keywordFiltered text := by
        rw [← hpw]
        have : p.1 ∈ (buildWeights (keywordFiltered text)).map Prod.fst :=
          List.mem_map.mpr ⟨p, hpkw, rfl⟩
        rw [keys_buildWeights] at this
        exact (seenOrder_mem _ _).mp this
      rw [buildWeights_lookup, if_pos hw1]
    · rw [h]
      refine List.pairwise_map.mpr ?_
      have hsort := sortD_sorted Prod.snd (buildWeights (keywordFiltered text))
      have htake := List.Pairwise.sublist (List.take_sublist topN _) hsort
      refine List.Pairwise.imp_of_mem ?_ htake
      intro p q hp hq hrel
      rw [hwtp p (hmemkw p hp), hwtp q (hmemkw q hq)]
      exact hrel
    · rw [h]
      refine List.pairwise_map.mpr ?_
      have hkeys : List.Pairwise (fun u v =>
          idxOfStr u (keywordFiltered text) < idxOfStr v (keywordFiltered text))
          ((buildWeights (keywordFiltered text)).map Prod.fst) := by
        rw [keys_buildWeights]
        exact seenOrder_pairwise_idxOf _
      have hkw := List.pairwise_map.mp hkeys
      have hst := sortD_pairwise_stable Prod.snd _ _ hkw
      have htake := List.Pairwise.sublist (List.take_sublist topN _) hst
      refine List.Pairwise.imp_of_mem ?_ htake
      intro p q hp hq hrel heq
      apply hrel
      rw [← hwtp p (hmemkw p hp), ← hwtp q (hmemkw q hq)]
      exact heq

/-- Witness for C8 at the scenario text and the keyword "organization". -/
theorem c8_witness :
    lookupW (buildWeights (keywordFiltered
        "The cat sat on the mat. Organization, nation, creation.".data))
      "organization".data =
      some (((keywordFiltered
        "The cat sat on the mat. Organization, nation, creation.".data).count
          "organization".data : ℚ) * keywordBonus "organization".data) :=
  (c8_extract_keywords_spec
    "The cat sat on the mat. Organization, nation, creation.".data 5).2.2.1
    "organization".data (by decide)

/-! ### Keyword-extraction lemmas and C10 -/

theorem pySplitWsAux_token_chars :
    ∀ (s cur w : Str), (∀ c ∈ cur, pyIsSpace c = false) →
      w ∈ pySplitWsAux cur s → ∀ c ∈ w, (c ∈ cur ∨ c ∈ s) ∧ pyIsSpace c = false := by
  intro s
  induction s with
  | nil =>
    intro cur w hcur hw c hc
    rw [pySplitWsAux] at hw
    split at hw
    · simp at hw
    · rcases List.mem_singleton.mp hw with rfl
      have hc2 : c ∈ cur := by simpa using hc
      exact ⟨Or.inl hc2, hcur c hc2⟩
  | cons d rest ih =>
    intro cur w hcur hw c hc
    rw [pySplitWsAux] at hw
    split at hw
    · split at hw
      · have := ih [] w (by simp) hw c hc
        rcases this with ⟨hin, hns⟩
        rcases hin with h | h
        · simp at h
        · exact ⟨Or.inr (List.mem_cons_of_mem _ h), hns⟩
      · rcases List.mem_cons.mp hw with rfl | hw2
        · have hc2 : c ∈ cur := by simpa using hc
          exact ⟨Or.inl hc2, hcur c hc2⟩
        · have := ih [] w (by simp) hw2 c hc
          rcases this with ⟨hin, hns⟩
          rcases hin with h | h
          · simp at h
          · exact ⟨Or.inr (List.mem_cons_of_mem _ h), hns⟩
    · rename_i hd
      have hcur2 : ∀ x ∈ d :: cur, pyIsSpace x = false := by
        intro x hx
        rcases List.mem_cons.mp hx with rfl | hx
        · simpa using hd
        · exact hcur x hx
      have := ih (d :: cur) w hcur2 hw c hc
      rcases this with ⟨hin, hns⟩
      rcases hin with h | h
      · rcases List.mem_cons.mp h with rfl | h2
        · exact ⟨Or.inr (List.mem_cons_self _ _), hns⟩
        · exact ⟨Or.inl h2, hns⟩
      · exact ⟨Or.inr (List.mem_cons_of_mem _ h), hns⟩

theorem mem_pySplitWs_chars (s w : Str) (hw : w ∈ pySplitWs s) :
    ∀ c ∈ w, c ∈ s ∧ pyIsSpace c = false := by
  intro c hc
  have := pySplitWsAux_token_chars s [] w (by simp) hw c hc
  rcases this with ⟨hin, hns⟩
  rcases hin with h | h
  · simp at h
  · exact ⟨h, hns⟩

theorem mem_addWeight (m : List (Str × ℚ)) (w : Str) (d : ℚ) (p : Str × ℚ) :
    p ∈ addWeight m w d → p ∈ m ∨ p.1 = w := by
  induction m with
  | nil =>
    intro hp
    rw [addWeight] at hp
    rcases List.mem_singleton.mp hp with rfl
    exact Or.inr rfl
  | cons kv rest ih =>
    intro hp
    obtain ⟨k, v⟩ := kv
    rw [addWeight] at hp
    split at hp
    · rcases List.mem_cons.mp hp with rfl | hp2
      · rename_i hk; exact Or.inr hk
      · exact Or.inl (List.mem_cons_of_mem _ hp2)
    · rcases List.mem_cons.mp hp with rfl | hp2
      · exact Or.inl (List.mem_cons_self _ _)
      · rcases ih hp2 with h | h
        · exact Or.inl (List.mem_cons_of_mem _ h)
        · exact Or.inr h

theorem mem_foldl_addWeight :
    ∀ (ws : List Str) (m : List (Str × ℚ)) (p : Str × ℚ),
      p ∈ ws.foldl (fun m w => addWeight m w (keywordBonus w)) m → p ∈ m ∨ p.1 ∈ ws := by
  intro ws
  induction ws with
  | nil => intro m p hp; exact Or.inl hp
  | cons w rest ih =>
    intro m p hp
    rw [List.foldl_cons] at hp
    rcases ih _ p hp with h | h
    · rcases mem_addWeight _ _ _ _ h with h2 | h2
      · exact Or.inl h2
      · exact Or.inr (h2 ▸ List.mem_cons_self _ _)
    · exact Or.inr (List.mem_cons_of_mem _ h)

theorem mem_buildWeights (ws : List Str) (p : Str × ℚ) (hp : p ∈ buildWeights ws) :
    p.1 ∈ ws := by
  rcases mem_foldl_addWeight ws [] p hp with h | h
  · simp at h
  · exact h

theorem az_not_digit (c : Char) (h1 : 'a' ≤ c) : c.isDigit = false := by
  rw [Char.isDigit]
  have hv : (97 : UInt32) ≤ c.val := h1
  have hvn : (97 : UInt32).toNat ≤ c.val.toNat := hv
  have h2 : ¬ (c.val ≤ 57) := by
    intro hle
    have hlen : c.val.toNat ≤ (57 : UInt32).toNat := hle
    have h97 : (97 : UInt32).toNat = 97 := rfl
    have h57 : (57 : UInt32).toNat = 57 := rfl
    omega
  simp [h2]


/-- C10: every keyword returned by `_extract_keywords` consists only of the
lowercase letters a–z (the pre-tokenization substitution replaces every
other character by a space, which also makes the numeric filter vacuous),
has length strictly greater than 3, and is not a stop word. -/
theorem c10_keyword_wellformedness (text : Str) (topN : ℕ) :
    ∀ w ∈ extractKeywords text topN,
      (∀ c ∈ w, 'a' ≤ c ∧ c ≤ 'z') ∧ 3 < w.length ∧ w ∉ stopWords ∧
      pyIsDigitStr w = false := by
  intro w hw
  rw [extractKeywords] at hw
  split at hw
  · simp at hw
  · obtain ⟨p, hp, hpw⟩ := List.mem_map.mp hw
    have hpsort : p ∈ sortD Prod.snd (buildWeights (keywordFiltered text)) :=
      List.mem_of_mem_take hp
    have hpbw : p ∈ buildWeights (keywordFiltered text) :=
      ((sortD_perm Prod.snd _).mem_iff).mp hpsort
    have hwf : w ∈ keywordFiltered text := by
      rw [← hpw]
      exact mem_buildWeights _ _ hpbw
    rw [keywordFiltered] at hwf
    rw [List.mem_filter] at hwf
    obtain ⟨hwtok, hcond⟩ := hwf
    simp only [Bool.and_eq_true, decide_eq_true_eq, Bool.not_eq_true'] at hcond
    obtain ⟨⟨hlen, hstop⟩, hdig⟩ := hcond
    refine ⟨?_, hlen, ?_, hdig⟩
    · intro c hc
      obtain ⟨hcmem, hcns⟩ := mem_pySplitWs_chars _ w hwtok c hc
      obtain ⟨orig, horig, hco⟩ := List.mem_map.mp hcmem
      by_cases haz : ('a' ≤ orig ∧ orig ≤ 'z') ∨ pyIsSpace orig
      · rw [if_pos haz] at hco
        subst hco
        rcases haz with h | h
        · exact h
        · rw [h] at hcns; cases hcns
      · rw [if_neg haz] at hco
        subst hco
        simp [pyIsSpace] at hcns
    · simpa using hstop

/-- Witness for C10 at the C8 scenario text and the keyword
"organization". -/
theorem c10_witness :
    (∀ c ∈ "organization".data, 'a' ≤ c ∧ c ≤ 'z') ∧
    3 < "organization".data.length ∧ "organization".data ∉ stopWords ∧
    pyIsDigitStr "organization".data = false :=
  c10_keyword_wellformedness
    "The cat sat on the mat. Organization, nation, creation.".data 5
    "organization".data (by decide)

end WikiScout
